import Mathlib

set_option maxHeartbeats 2000000
set_option maxRecDepth 8000

/-
  Shallow embedding of MK4duo's M100 free-memory watcher
  (src/MK4duo/src/utility/M100_Free_Mem_Chk.cpp).

  Memory is modelled as a total map `Nat → Nat` from addresses to byte
  values.  The reference hardware is the 8-bit AVR family: pointers and
  `uint16_t` are 16 bits wide and `int` is 16 bits, so `uint16_t`
  arithmetic is taken modulo 65536 and `int16_t` values live in
  `[-32768, 32767]`.  Loops whose C counters strictly increase are
  embedded with a fuel argument equal to an upper bound on the number of
  remaining iterations; loops that can genuinely diverge (the report
  scan, whose `uint16_t` index can wrap, and the dump row loop, whose
  16-bit row pointer can wrap past the top of the address space) carry
  enough fuel to decide termination and report divergence explicitly
  (`none`, or a `false` terminated-flag).  Executions that would hit C
  undefined behaviour (signed-int index overflow in the check scan) are
  excluded by explicit hypotheses on the theorems that quantify over
  memories reaching them.
-/

namespace M100

/-- The sentinel byte: `#define TEST_BYTE ((char) 0xE5)`. -/
def TEST_BYTE : Nat := 0xE5

/-- Length of the run of consecutive sentinel bytes starting at address
`p`, capped at `cap` (so the result is `cap` exactly when the first
`cap` bytes are all sentinel).  This is the proof-level measure of a
run; `count_test_bytes` is related to it below. -/
def runLen (mem : Nat → Nat) : Nat → Nat → Nat
  | _, 0 => 0
  | p, cap+1 => if mem p = TEST_BYTE then runLen mem (p+1) cap + 1 else 0

/-- Loop body of `count_test_bytes`:
`for (uint16_t i = 0; i < 32000; i++) if (((char)ptr[i]) != TEST_BYTE) return i - 1; return -1;`.
`fuel` is the number of iterations left (32000 at entry) and `i` is the
loop counter.  The returned `int16_t` value `i - 1` equals the
mathematical `i - 1` for all `0 ≤ i < 32000`. -/
def countAux (mem : Nat → Nat) (ptr : Nat) : Nat → Nat → Int
  | 0, _ => -1
  | fuel+1, i =>
    if mem (ptr + i) = TEST_BYTE then countAux mem ptr fuel (i+1) else (i : Int) - 1

/-- `int16_t count_test_bytes(const uint8_t * const ptr)`: scans forward
from `ptr` and returns one less than the index of the first
non-sentinel byte, or `-1` if none is found within 32000 bytes. -/
def count_test_bytes (mem : Nat → Nat) (ptr : Nat) : Int :=
  countAux mem ptr 32000 0

/-- The block-counting loop of `check_for_free_memory_corruption`:
`for (int i = 0; i < n; i++) { if (ptr[i] == TEST_BYTE) { int16_t j = count_test_bytes(ptr+i); if (j > 8) { i += j; block_cnt++; } } }`.
Arguments after `n` are: fuel (an upper bound on remaining iterations —
the index strictly increases, so `n` iterations suffice), the loop
index `i`, the accumulated `block_cnt`, and the number of loop
iterations executed so far (the count of indices the scan examined).
Returns `(block_cnt, iterations)`.  The loop index is the AVR's 16-bit
`int`; it is embedded as an exact natural number, which coincides with
the machine exactly on executions where no counted skip `i += j; i++`
passes 32767 — `i + j + 1 > 32767` overflows the signed 16-bit index,
which is C undefined behaviour (in practice the index wraps negative
and the loop rescans), so theorems over general memories carry an
explicit hypothesis bounding `i + runLen` by 32767. -/
def scanGo (mem : Nat → Nat) (ptr n : Nat) : Nat → Nat → Nat → Nat → Nat × Nat
  | 0, _, cnt, iters => (cnt, iters)
  | fuel+1, i, cnt, iters =>
    if i < n then
      if mem (ptr + i) = TEST_BYTE then
        if 8 < count_test_bytes mem (ptr + i) then
          scanGo mem ptr n fuel (i + (count_test_bytes mem (ptr + i)).toNat + 1)
            (cnt + 1) (iters + 1)
        else scanGo mem ptr n fuel (i+1) cnt (iters + 1)
      else scanGo mem ptr n fuel (i+1) cnt (iters + 1)
    else (cnt, iters)

/-- Conversion of an `int` value to `uint16_t` (AVR: both 16 bits). -/
def toU16i (x : Int) : Nat := (x % 65536).toNat

/-- Conversion of a `uint16_t` value to `int16_t` (two's complement). -/
def toI16 (x : Nat) : Int :=
  if x % 65536 < 32768 then ((x % 65536 : Nat) : Int)
  else ((x % 65536 : Nat) : Int) - 65536

/-- Result of `check_for_free_memory_corruption`.  `collision` records
whether the `sp < ptr` stack/heap-collision branch was taken (it
prints and optionally dumps; the function then falls through),
`blockCnt` is the block count after the `0 → -1` normalisation,
`examined` is the number of byte indices the scan loop visited, and
`ret` is the function's return value. -/
structure CheckResult where
  collision : Bool
  blockCnt : Int
  examined : Nat
  ret : Int
  deriving DecidableEq

/-- `int check_for_free_memory_corruption(const char * const ptr)`,
with the region boundaries `ptr = END_OF_HEAP()` and
`sp = top_of_stack()` passed explicitly.  `n = sp - ptr` is the
pointer difference reduced to the 16-bit `ptrdiff_t`/`int` of the AVR
target (two's complement), so a gap of more than 32768 bytes below the
heap wraps to a positive count.  The scan loop body runs for
`0 ≤ i < n`, so it never runs when the reduced difference is
non-positive.  After the scan: `if (block_cnt == 0) block_cnt = -1;`
then `if (block_cnt == 1) return 0; return block_cnt;`. -/
def check_for_free_memory_corruption (mem : Nat → Nat) (ptr sp : Nat) : CheckResult :=
  let n : Int := toI16 (toU16i ((sp : Int) - (ptr : Int)))
  let s := scanGo mem ptr n.toNat n.toNat 0 0 0
  let bc : Int := if s.1 = 0 then -1 else (s.1 : Int)
  { collision := decide (sp < ptr)
    blockCnt := bc
    examined := s.2
    ret := if bc = 1 then 0 else bc }

/-- `void init_free_memory(uint8_t *ptr, int16_t size)`: computes
`size -= 250`; on `size < 0` prints `Unable to initialize` and returns
without writing (modelled by the `Bool` component `false`); otherwise
fills `size` bytes starting at `ptr + 8` with the sentinel.  Returns
the resulting memory, a success flag, and the number of bytes written
(the value the source prints as `bytes of memory initialized`).  The
source's read-back verification loop only re-reads the bytes it just
wrote and reports hardware anomalies; in this pure model it never
fires and is omitted. -/
def init_free_memory (mem : Nat → Nat) (ptr : Nat) (size : Int) :
    (Nat → Nat) × Bool × Int :=
  let size' := size - 250
  if size' < 0 then (mem, false, 0)
  else
    ((fun a => if ptr + 8 ≤ a ∧ a < ptr + 8 + size'.toNat then TEST_BYTE else mem a),
     true, size')

/-- Single byte store `*addr = v`. -/
def updByte (m : Nat → Nat) (a v : Nat) : Nat → Nat :=
  fun x => if x = a then v else m x

/-- The stride divisor `size + 1` of `corrupt_free_memory`, computed in
`uint16_t` arithmetic (AVR: `uint16_t` is `unsigned int`, so the sum
wraps modulo 65536 and `size = 65535` yields divisor 0). -/
def corrupt_stride_divisor (size : Nat) : Nat := (size + 1) % 65536

/-- `void corrupt_free_memory(char *ptr, const uint16_t size)` (the
`size` argument is the requested number of corruptions, from
`code_value_int()`).  The source computes `ptr += 8`,
`near_top = top_of_stack() - ptr - 250` and `j = near_top / (size+1)`
in `uint16_t` arithmetic, then writes the byte `i` at `ptr + i*j` for
`i = 1..size`.  Returns the new memory and the list of corrupted
addresses (which the source prints).  Lean's `x / 0 = 0` stands in for
the divide-by-zero case, which is C undefined behaviour and excluded
by hypotheses wherever it could arise; likewise the loop is embedded
as `i = 1..size` directly, faithful for `size < 65535` (at
`size = 65535` the C `uint16_t` counter could never exceed `size`). -/
def corrupt_free_memory (mem : Nat → Nat) (ptr sp : Nat) (size : Nat) :
    (Nat → Nat) × List Nat :=
  let ptr8 := ptr + 8
  let near_top := toU16i ((sp : Int) - (ptr8 : Int) - 250)
  let j := near_top / corrupt_stride_divisor size
  ((List.range' 1 size).foldl (fun m i => updByte m (ptr8 + (i * j) % 65536) (i % 256)) mem,
   (List.range' 1 size).map (fun i => ptr8 + (i * j) % 65536))

/-- State of the scan loop of `free_memory_pool_report`:
`i` is the `uint16_t` loop index, `block_cnt` the `uint16_t` block
counter, `max_cnt` the `int16_t` running maximum (initially `-1`),
`max_addr` the address of the current maximum (initially NULL,
modelled as `none`), and `found` the list of
`Found <j> bytes free at <addr>` reports emitted so far, as
(address, measured length) pairs. -/
structure ReportState where
  i : Nat
  block_cnt : Nat
  max_cnt : Int
  max_addr : Option Nat
  found : List (Nat × Nat)
  deriving DecidableEq

/-- The scan loop of `free_memory_pool_report`:
`for (uint16_t i = 0; i < size; i++) { if (*addr == TEST_BYTE) { uint16_t j = count_test_bytes(addr); if (j > 8) { report; if (j > max_cnt) {max_cnt = j; max_addr = addr;} i += j; block_cnt++; } } }`.
All index arithmetic is `uint16_t` (mod 65536).  The `int16_t` result
of `count_test_bytes` is converted to `uint16_t` (`-1` becomes 65535).
On AVR the comparison `j > max_cnt` converts `max_cnt` to
`unsigned int`, so it is `toU16i max_cnt < j`.  Because the index can
wrap, the loop can genuinely diverge; `fuel` bounds the iterations and
`none` reports exhaustion. -/
def reportGo (mem : Nat → Nat) (ptr size : Nat) : Nat → ReportState → Option ReportState
  | 0, _ => none
  | fuel+1, s =>
    if s.i < size then
      if mem (ptr + s.i) = TEST_BYTE then
        if 8 < toU16i (count_test_bytes mem (ptr + s.i)) then
          reportGo mem ptr size fuel
            { i := ((s.i + toU16i (count_test_bytes mem (ptr + s.i))) % 65536 + 1) % 65536
              block_cnt := (s.block_cnt + 1) % 65536
              max_cnt :=
                if toU16i s.max_cnt < toU16i (count_test_bytes mem (ptr + s.i)) then
                  toI16 (toU16i (count_test_bytes mem (ptr + s.i)))
                else s.max_cnt
              max_addr :=
                if toU16i s.max_cnt < toU16i (count_test_bytes mem (ptr + s.i)) then
                  some (ptr + s.i)
                else s.max_addr
              found := s.found ++ [(ptr + s.i, toU16i (count_test_bytes mem (ptr + s.i)))] }
        else reportGo mem ptr size fuel { s with i := (s.i + 1) % 65536 }
      else reportGo mem ptr size fuel { s with i := (s.i + 1) % 65536 }
    else some s

/-- The scan of `void free_memory_pool_report(const char * const ptr, const uint16_t size)`.
A fuel of 70000 exceeds the 65537 distinct values the loop index can
take before it must repeat, so every terminating execution of the C
loop is reproduced (`none` means the C loop diverges). -/
def free_memory_pool_report (mem : Nat → Nat) (ptr size : Nat) : Option ReportState :=
  reportGo mem ptr size 70000 { i := 0, block_cnt := 0, max_cnt := -1, max_addr := none, found := [] }

/-- `(uint8_t*)((uint16_t)ptr & 0xFFF0)`: truncate the pointer to 16
bits and clear the low nibble, i.e. round down to a 16-byte boundary. -/
def alignDown16 (x : Nat) : Nat := x % 65536 / 16 * 16

/-- `(uint8_t*)((uint16_t)sp | 0x000F)`: truncate to 16 bits and set
the low nibble, i.e. the 15th byte of `sp`'s 16-byte row. -/
def alignUp15 (x : Nat) : Nat := x % 65536 / 16 * 16 + 15

/-- Row-start addresses of `dump_free_memory`'s main loop
`while (ptr < sp) { ...render one 16-byte row...; ptr += 16; }` after
the two alignments.  The row pointer is 16 bits wide, so `ptr += 16`
wraps modulo 65536 at the top of the address space; when that happens
the loop never terminates.  Returns the rows emitted within `fuel`
iterations together with a flag that is `true` exactly when the loop
exited within the fuel. -/
def dumpRowsGo : Nat → Nat → Nat → List Nat × Bool
  | 0, p, sp => if p < sp then ([], false) else ([], true)
  | fuel+1, p, sp =>
    if p < sp then
      match dumpRowsGo fuel ((p + 16) % 65536) sp with
      | (rows, t) => (p :: rows, t)
    else ([], true)

/-- The row-start addresses emitted by
`void dump_free_memory(const uint8_t *ptr, const uint8_t *sp)`, with
the termination flag.  The aligned row pointer takes at most 4096
distinct values, so a loop that has not exited after 4097 iterations
has repeated a state and runs forever: the flag decides termination
of the C loop, and on a `false` flag the rows listed are the first
4097 of an unbounded emission. -/
def dump_rows (ptr sp : Nat) : List Nat × Bool :=
  dumpRowsGo 4097 (alignDown16 ptr) (alignUp15 sp)

/-- Value of a byte read into a (signed, AVR) `char`. -/
def toI8 (b : Nat) : Int :=
  if b % 256 < 128 then ((b % 256 : Nat) : Int) else ((b % 256 : Nat) : Int) - 256

/-- The second (annotation) pass of `dump_free_memory` for one byte:
`char ccc = (char)ptr[i];`
`if (&ptr[i] >= command_queue && &ptr[i] < &command_queue[BUFSIZE][MAX_CMD_SIZE]) { if (!WITHIN(ccc, ' ', 0x7E)) ccc = ' '; } else { ccc = (ccc == TEST_BYTE) ? ' ' : '?'; }`.
`qlo` and `qhi` are the bounds of the command-queue buffer (its
placement is fixed by the linker, so it is a parameter here); `a` is
the byte's address and `b` its value.  The returned `Int` is the
signed `char` finally passed to `SERIAL_C`. -/
def render_char (qlo qhi a b : Nat) : Int :=
  let ccc := toI8 b
  if qlo ≤ a ∧ a < qhi then
    if 32 ≤ ccc ∧ ccc ≤ 126 then ccc else 32
  else if ccc = toI8 TEST_BYTE then 32 else 63

/-- Full output of `dump_free_memory`: for each row, the row address,
the 16 raw bytes printed in hex, and the 16 annotation characters of
the second pass. -/
def dump_free_memory (qlo qhi : Nat) (mem : Nat → Nat) (ptr sp : Nat) :
    List (Nat × List Nat × List Int) :=
  (dump_rows ptr sp).1.map (fun a =>
    (a, (List.range 16).map (fun i => mem (a + i)),
        (List.range 16).map (fun i => render_char qlo qhi (a + i) (mem (a + i)))))

/-- One invocation of `gcode_M100` as far as the lifecycle flag is
concerned: `static bool m100_not_initialized = true;`
`if (m100_not_initialized || code_seen('I')) { m100_not_initialized = false; init_free_memory(ptr, sp - ptr); }`.
Input: the current flag and whether the command carries `I`.
Output: the new flag and whether `init_free_memory` ran. -/
def gcode_M100_step (notInit seenI : Bool) : Bool × Bool :=
  if notInit || seenI then (false, true) else (notInit, false)

/-- For a sequence of invocations (each given by its `code_seen('I')`
value), whether the initializer ran on each call. -/
def m100_ranList : Bool → List Bool → List Bool
  | _, [] => []
  | flag, c :: cs =>
    (gcode_M100_step flag c).2 :: m100_ranList (gcode_M100_step flag c).1 cs

/-- For a sequence of invocations, the value of the
`m100_not_initialized` flag after each call. -/
def m100_flagList : Bool → List Bool → List Bool
  | _, [] => []
  | flag, c :: cs =>
    (gcode_M100_step flag c).1 :: m100_flagList (gcode_M100_step flag c).1 cs

/-- Whether index `x` of the scanned range starts a block the check
scan counts: the byte is the sentinel, no sentinel immediately
precedes it (or it is the very first index), and the sentinel run from
it is longer than 9 bytes but stops before the 32000-byte cap (a
capped run makes `count_test_bytes` return `-1`, which fails the
`j > 8` test). -/
def qualb (mem : Nat → Nat) (ptr x : Nat) : Bool :=
  (mem (ptr + x) == TEST_BYTE) &&
  (x == 0 || !(mem (ptr + x - 1) == TEST_BYTE)) &&
  decide (9 < runLen mem (ptr + x) 32000) &&
  decide (runLen mem (ptr + x) 32000 < 32000)

/-- Number of counted block starts in the first `n` scanned bytes. -/
def countedBlocks (mem : Nat → Nat) (ptr n : Nat) : Nat :=
  ((Finset.range n).filter (fun x => qualb mem ptr x = true)).card

/-- Modelled from the spec's words, for comparison with the code: a
run counts as a block when "its length exceeds a minimum threshold
(8 bytes)", i.e. strictly more than 8 sentinel bytes. -/
def specClaimQual (mem : Nat → Nat) (ptr x : Nat) : Bool :=
  (mem (ptr + x) == TEST_BYTE) &&
  (x == 0 || !(mem (ptr + x - 1) == TEST_BYTE)) &&
  decide (8 < runLen mem (ptr + x) 32000)

/-- Modelled from the spec's words: the number of runs of sentinel
bytes in the first `n` scanned bytes whose length exceeds the 8-byte
minimum threshold. -/
def specClaimBlocks (mem : Nat → Nat) (ptr n : Nat) : Nat :=
  ((Finset.range n).filter (fun x => specClaimQual mem ptr x = true)).card

/-! ### Run-length lemmas -/

theorem runLen_zero_of_ne (mem : Nat → Nat) (p cap : Nat)
    (h : mem p ≠ TEST_BYTE) : runLen mem p cap = 0 := by
  cases cap with
  | zero => rfl
  | succ c => simp [runLen, h]

theorem runLen_succ (mem : Nat → Nat) (p cap : Nat) (h : mem p = TEST_BYTE) :
    runLen mem p (cap+1) = runLen mem (p+1) cap + 1 := by
  simp [runLen, h]

theorem runLen_le (mem : Nat → Nat) : ∀ cap p, runLen mem p cap ≤ cap := by
  intro cap
  induction cap with
  | zero => intro p; simp [runLen]
  | succ c ih =>
    intro p
    by_cases h : mem p = TEST_BYTE
    · rw [runLen_succ _ _ _ h]
      exact Nat.succ_le_succ (ih _)
    · rw [runLen_zero_of_ne _ _ _ h]
      omega

theorem runLen_stable (mem : Nat → Nat) :
    ∀ cap p cap', runLen mem p cap < cap → cap ≤ cap' →
      runLen mem p cap' = runLen mem p cap := by
  intro cap
  induction cap with
  | zero =>
    intro p cap' h _
    simp [runLen] at h
  | succ c ih =>
    intro p cap' h hle
    by_cases hm : mem p = TEST_BYTE
    · obtain ⟨c', rfl⟩ : ∃ c', cap' = c' + 1 := ⟨cap' - 1, by omega⟩
      rw [runLen_succ _ _ _ hm] at h ⊢
      rw [runLen_succ _ _ _ hm]
      have := ih (p+1) c' (by omega) (by omega)
      omega
    · rw [runLen_zero_of_ne _ _ _ hm, runLen_zero_of_ne _ _ _ hm]

theorem runLen_of_run (mem : Nat → Nat) :
    ∀ d p cap, (∀ k, k < d → mem (p + k) = TEST_BYTE) →
      mem (p + d) ≠ TEST_BYTE → d ≤ cap → runLen mem p cap = d := by
  intro d
  induction d with
  | zero =>
    intro p cap _ hne _
    have : mem p ≠ TEST_BYTE := by simpa using hne
    exact runLen_zero_of_ne _ _ _ this
  | succ d ih =>
    intro p cap hs hne hle
    obtain ⟨c, rfl⟩ : ∃ c, cap = c + 1 := ⟨cap - 1, by omega⟩
    have h0 : mem p = TEST_BYTE := by simpa using hs 0 (by omega)
    rw [runLen_succ _ _ _ h0]
    have hrec : runLen mem (p+1) c = d := by
      apply ih (p+1) c
      · intro k hk
        have := hs (k+1) (by omega)
        rw [show p + 1 + k = p + (k + 1) by omega]
        exact this
      · rw [show p + 1 + d = p + (d + 1) by omega]
        exact hne
      · omega
    omega

theorem mem_eq_test_of_lt_runLen (mem : Nat → Nat) :
    ∀ cap p k, k < runLen mem p cap → mem (p + k) = TEST_BYTE := by
  intro cap
  induction cap with
  | zero => intro p k h; simp [runLen] at h
  | succ c ih =>
    intro p k h
    by_cases hm : mem p = TEST_BYTE
    · rw [runLen_succ _ _ _ hm] at h
      cases k with
      | zero => simpa using hm
      | succ k =>
        have := ih (p+1) k (by omega)
        rw [show p + (k+1) = p + 1 + k by omega]
        exact this
    · rw [runLen_zero_of_ne _ _ _ hm] at h
      omega

theorem runLen_stop (mem : Nat → Nat) :
    ∀ cap p, runLen mem p cap < cap →
      mem (p + runLen mem p cap) ≠ TEST_BYTE := by
  intro cap
  induction cap with
  | zero => intro p h; simp [runLen] at h
  | succ c ih =>
    intro p h
    by_cases hm : mem p = TEST_BYTE
    · rw [runLen_succ _ _ _ hm] at h ⊢
      have := ih (p+1) (by omega)
      rw [show p + (runLen mem (p+1) c + 1) = p + 1 + runLen mem (p+1) c by omega]
      exact this
    · rw [runLen_zero_of_ne _ _ _ hm]
      simpa using hm

theorem runLen_le_of_ne (mem : Nat → Nat) (p cap d : Nat)
    (h : mem (p + d) ≠ TEST_BYTE) : runLen mem p cap ≤ d := by
  by_contra hlt
  push_neg at hlt
  exact h (mem_eq_test_of_lt_runLen mem cap p d hlt)

theorem runLen_pos (mem : Nat → Nat) (p cap : Nat)
    (h : mem p = TEST_BYTE) (hc : 0 < cap) : 0 < runLen mem p cap := by
  obtain ⟨c, rfl⟩ : ∃ c, cap = c + 1 := ⟨cap - 1, by omega⟩
  rw [runLen_succ _ _ _ h]
  omega

/-! ### `count_test_bytes` characterisation -/

theorem countAux_eq (mem : Nat → Nat) (ptr : Nat) :
    ∀ fuel i, countAux mem ptr fuel i =
      if runLen mem (ptr + i) fuel = fuel then -1
      else ((i + runLen mem (ptr + i) fuel : Nat) : Int) - 1 := by
  intro fuel
  induction fuel with
  | zero => intro i; simp [countAux, runLen]
  | succ f ih =>
    intro i
    by_cases hm : mem (ptr + i) = TEST_BYTE
    · rw [show countAux mem ptr (f+1) i = countAux mem ptr f (i+1) from by
        simp [countAux, hm]]
      rw [ih (i+1), runLen_succ _ _ _ hm,
        show ptr + i + 1 = ptr + (i+1) by omega]
      by_cases hr : runLen mem (ptr + (i+1)) f = f
      · simp [hr]
      · rw [if_neg hr, if_neg (show ¬(runLen mem (ptr + (i+1)) f + 1 = f + 1) by omega)]
        omega
    · have h0 : runLen mem (ptr + i) (f+1) = 0 := runLen_zero_of_ne _ _ _ hm
      rw [show countAux mem ptr (f+1) i = (i : Int) - 1 from by simp [countAux, hm]]
      rw [h0, if_neg (by omega)]
      simp

theorem count_test_bytes_eq (mem : Nat → Nat) (p : Nat) :
    count_test_bytes mem p =
      if runLen mem p 32000 = 32000 then -1
      else ((runLen mem p 32000 : Nat) : Int) - 1 := by
  have h := countAux_eq mem p 32000 0
  simpa [count_test_bytes] using h

theorem count_test_bytes_of_run (mem : Nat → Nat) (p L : Nat)
    (hs : ∀ k, k < L → mem (p + k) = TEST_BYTE)
    (hne : mem (p + L) ≠ TEST_BYTE) (hL : L < 32000) :
    count_test_bytes mem p = (L : Int) - 1 := by
  rw [count_test_bytes_eq, runLen_of_run mem L p 32000 hs hne (by omega)]
  rw [if_neg (by omega)]

/-! ### Counting helpers -/

theorem filter_Ico_step_not (q : Nat → Prop) [DecidablePred q] (i n : Nat)
    (hq : ¬ q i) :
    ((Finset.Ico i n).filter q).card = ((Finset.Ico (i+1) n).filter q).card := by
  have hset : (Finset.Ico i n).filter q = (Finset.Ico (i+1) n).filter q := by
    ext x
    simp only [Finset.mem_filter, Finset.mem_Ico]
    constructor
    · rintro ⟨⟨h1, h2⟩, h3⟩
      refine ⟨⟨?_, h2⟩, h3⟩
      rcases Nat.eq_or_lt_of_le h1 with h | h
      · subst h; exact absurd h3 hq
      · omega
    · rintro ⟨⟨h1, h2⟩, h3⟩
      exact ⟨⟨by omega, h2⟩, h3⟩
  rw [hset]

theorem filter_Ico_step_skip (q : Nat → Prop) [DecidablePred q] (i n L : Nat)
    (hin : i < n) (hq : q i) (hL : 1 ≤ L)
    (hmid : ∀ x, i < x → x < i + L → ¬ q x) :
    ((Finset.Ico i n).filter q).card = 1 + ((Finset.Ico (i+L) n).filter q).card := by
  have hset : (Finset.Ico i n).filter q = insert i ((Finset.Ico (i+L) n).filter q) := by
    ext x
    simp only [Finset.mem_filter, Finset.mem_Ico, Finset.mem_insert]
    constructor
    · rintro ⟨⟨h1, h2⟩, h3⟩
      by_cases hx : x = i
      · exact Or.inl hx
      · right
        refine ⟨⟨?_, h2⟩, h3⟩
        by_contra hlt
        push_neg at hlt
        exact hmid x (by omega) (by omega) h3
    · rintro (rfl | ⟨⟨h1, h2⟩, h3⟩)
      · exact ⟨⟨le_refl _, hin⟩, hq⟩
      · exact ⟨⟨by omega, h2⟩, h3⟩
  rw [hset, Finset.card_insert_of_not_mem]
  · omega
  · simp only [Finset.mem_filter, Finset.mem_Ico]
    rintro ⟨⟨h1, _⟩, _⟩
    omega

theorem qualb_eq_true_iff (mem : Nat → Nat) (ptr x : Nat) :
    qualb mem ptr x = true ↔
      mem (ptr + x) = TEST_BYTE ∧ (x = 0 ∨ mem (ptr + x - 1) ≠ TEST_BYTE) ∧
      9 < runLen mem (ptr + x) 32000 ∧ runLen mem (ptr + x) 32000 < 32000 := by
  simp [qualb, and_assoc]

/-! ### The check scan counts exactly the qualifying block starts -/

theorem scanGo_count (mem : Nat → Nat) (ptr n : Nat)
    (H : ∀ k, k < n → runLen mem (ptr + k) 32000 < 32000) :
    ∀ fuel i cnt iters, n ≤ i + fuel →
      (i = 0 ∨ mem (ptr + i - 1) ≠ TEST_BYTE ∨ runLen mem (ptr + i) 32000 ≤ 8) →
      (scanGo mem ptr n fuel i cnt iters).1 =
        cnt + ((Finset.Ico i n).filter (fun x => qualb mem ptr x = true)).card := by
  intro fuel
  induction fuel with
  | zero =>
    intro i cnt iters hfuel _
    have hico : Finset.Ico i n = ∅ := Finset.Ico_eq_empty (by omega)
    simp [scanGo, hico]
  | succ f ih =>
    intro i cnt iters hfuel hentry
    by_cases hin : i < n
    · by_cases hm : mem (ptr + i) = TEST_BYTE
      · have hcap := H i hin
        have hcount : count_test_bytes mem (ptr + i) =
            ((runLen mem (ptr + i) 32000 : Nat) : Int) - 1 := by
          rw [count_test_bytes_eq, if_neg (by omega)]
        have hL1 : 1 ≤ runLen mem (ptr + i) 32000 :=
          runLen_pos mem (ptr + i) 32000 hm (by omega)
        by_cases hj : 8 < count_test_bytes mem (ptr + i)
        · have hL9 : 9 < runLen mem (ptr + i) 32000 := by
            rw [hcount] at hj
            omega
          rw [show scanGo mem ptr n (f+1) i cnt iters =
              scanGo mem ptr n f (i + (count_test_bytes mem (ptr + i)).toNat + 1)
                (cnt + 1) (iters + 1) from by simp [scanGo, hin, hm, hj]]
          have htoNat : (count_test_bytes mem (ptr + i)).toNat =
              runLen mem (ptr + i) 32000 - 1 := by
            rw [hcount]
            omega
          rw [htoNat, show i + (runLen mem (ptr + i) 32000 - 1) + 1 =
            i + runLen mem (ptr + i) 32000 by omega]
          have hstop : mem (ptr + (i + runLen mem (ptr + i) 32000)) ≠ TEST_BYTE := by
            have := runLen_stop mem 32000 (ptr + i) (by omega)
            rw [show ptr + (i + runLen mem (ptr + i) 32000) =
              ptr + i + runLen mem (ptr + i) 32000 by omega]
            exact this
          rw [ih (i + runLen mem (ptr + i) 32000) (cnt + 1) (iters + 1) (by omega)
            (Or.inr (Or.inr (by rw [runLen_zero_of_ne _ _ _ hstop]; omega)))]
          have hqi : qualb mem ptr i = true := by
            rw [qualb_eq_true_iff]
            refine ⟨hm, ?_, hL9, hcap⟩
            rcases hentry with h0 | hprev | hle
            · exact Or.inl h0
            · exact Or.inr hprev
            · omega
          have hmid : ∀ x, i < x → x < i + runLen mem (ptr + i) 32000 →
              ¬ (qualb mem ptr x = true) := by
            intro x hx1 hx2 hqx
            rw [qualb_eq_true_iff] at hqx
            rcases hqx.2.1 with h0 | hprev
            · omega
            · apply hprev
              have hsen : mem (ptr + i + (x - 1 - i)) = TEST_BYTE :=
                mem_eq_test_of_lt_runLen mem 32000 (ptr + i) (x - 1 - i) (by omega)
              rw [show ptr + x - 1 = ptr + i + (x - 1 - i) by omega]
              exact hsen
          rw [filter_Ico_step_skip (fun x => qualb mem ptr x = true) i n
            (runLen mem (ptr + i) 32000) hin hqi (by omega) hmid]
          omega
        · have hL9 : runLen mem (ptr + i) 32000 ≤ 9 := by
            rw [hcount] at hj
            omega
          rw [show scanGo mem ptr n (f+1) i cnt iters =
              scanGo mem ptr n f (i+1) cnt (iters + 1) from by
            simp [scanGo, hin, hm, hj]]
          have hnext : runLen mem (ptr + (i+1)) 32000 ≤ 8 := by
            have h1 : runLen mem (ptr + i) 32000 = runLen mem (ptr + i + 1) 31999 + 1 :=
              runLen_succ _ _ _ hm
            have h3 : runLen mem (ptr + i + 1) 32000 = runLen mem (ptr + i + 1) 31999 :=
              runLen_stable mem 31999 (ptr + i + 1) 32000 (by omega) (by omega)
            rw [show ptr + (i+1) = ptr + i + 1 by omega, h3]
            omega
          rw [ih (i+1) cnt (iters + 1) (by omega) (Or.inr (Or.inr hnext))]
          have hqi : ¬ (qualb mem ptr i = true) := by
            rw [qualb_eq_true_iff]
            rintro ⟨_, _, h9, _⟩
            omega
          rw [filter_Ico_step_not (fun x => qualb mem ptr x = true) i n hqi]
      · rw [show scanGo mem ptr n (f+1) i cnt iters =
            scanGo mem ptr n f (i+1) cnt (iters + 1) from by simp [scanGo, hin, hm]]
        rw [ih (i+1) cnt (iters + 1) (by omega)
          (Or.inr (Or.inl (by rw [show ptr + (i+1) - 1 = ptr + i by omega]; exact hm)))]
        have hqi : ¬ (qualb mem ptr i = true) := by
          rw [qualb_eq_true_iff]
          rintro ⟨h, _⟩
          exact hm h
        rw [filter_Ico_step_not (fun x => qualb mem ptr x = true) i n hqi]
    · have hico : Finset.Ico i n = ∅ := Finset.Ico_eq_empty (by omega)
      rw [show scanGo mem ptr n (f+1) i cnt iters = (cnt, iters) from by
        simp [scanGo, hin]]
      simp [hico]

/-- For a region whose size fits the positive half of the 16-bit
`ptrdiff_t`, the reduced pointer difference is exactly `sp - ptr`. -/
theorem ptrdiff_toNat_of_le (ptr sp : Nat) (hle : ptr ≤ sp)
    (hfit : sp - ptr ≤ 32767) :
    (toI16 (toU16i ((sp : Int) - (ptr : Int)))).toNat = sp - ptr := by
  have h1 : toU16i ((sp : Int) - (ptr : Int)) = sp - ptr := by
    unfold toU16i
    omega
  rw [h1]
  unfold toI16
  rw [Nat.mod_eq_of_lt (by omega), if_pos (by omega)]
  omega

/-- The check scan's block count over a region of `n = sp - ptr` bytes
(`ptr ≤ sp`, size within the 16-bit pointer difference) equals the
number of qualifying block starts, provided no scanned position starts
a sentinel run reaching the 32000-byte cap. -/
theorem check_blockCnt_eq (mem : Nat → Nat) (ptr sp : Nat) (hle : ptr ≤ sp)
    (hfit : sp - ptr ≤ 32767)
    (H : ∀ k, k < sp - ptr → runLen mem (ptr + k) 32000 < 32000) :
    (scanGo mem ptr ((toI16 (toU16i ((sp : Int) - (ptr : Int)))).toNat)
      ((toI16 (toU16i ((sp : Int) - (ptr : Int)))).toNat) 0 0 0).1 =
      countedBlocks mem ptr (sp - ptr) := by
  rw [ptrdiff_toNat_of_le ptr sp hle hfit]
  have h := scanGo_count mem ptr (sp - ptr) H (sp - ptr) 0 0 0 (by omega) (Or.inl rfl)
  simp only [countedBlocks, Finset.range_eq_Ico]
  simpa using h

/-- Return value of the check as a function of the counted blocks. -/
theorem check_ret_eq (mem : Nat → Nat) (ptr sp : Nat) (hle : ptr ≤ sp)
    (hfit : sp - ptr ≤ 32767)
    (H : ∀ k, k < sp - ptr → runLen mem (ptr + k) 32000 < 32000) :
    (check_for_free_memory_corruption mem ptr sp).ret =
      if countedBlocks mem ptr (sp - ptr) = 1 then 0
      else if countedBlocks mem ptr (sp - ptr) = 0 then -1
      else (countedBlocks mem ptr (sp - ptr) : Int) := by
  have hb := check_blockCnt_eq mem ptr sp hle hfit H
  simp only [check_for_free_memory_corruption, hb]
  by_cases h0 : countedBlocks mem ptr (sp - ptr) = 0
  · simp [h0]
  · by_cases h1 : countedBlocks mem ptr (sp - ptr) = 1
    · simp [h0, h1]
    · rw [if_neg h0, if_neg h1]
      rw [if_neg (show ¬((countedBlocks mem ptr (sp - ptr) : Int) = 1) by exact_mod_cast h1)]

/-- Normalised block count of the check as a function of the counted
blocks. -/
theorem check_blockCnt_val (mem : Nat → Nat) (ptr sp : Nat) (hle : ptr ≤ sp)
    (hfit : sp - ptr ≤ 32767)
    (H : ∀ k, k < sp - ptr → runLen mem (ptr + k) 32000 < 32000) :
    (check_for_free_memory_corruption mem ptr sp).blockCnt =
      if countedBlocks mem ptr (sp - ptr) = 0 then -1
      else (countedBlocks mem ptr (sp - ptr) : Int) := by
  have hb := check_blockCnt_eq mem ptr sp hle hfit H
  simp only [check_for_free_memory_corruption, hb]

/-! ### Claims -/

/-- C2, counterexample: the spec's threshold is wrong by one.  A region
of 20 bytes holding a single sentinel run of exactly 9 bytes contains
exactly one run whose length exceeds the 8-byte minimum threshold, so
the claim requires return value 0, but the code returns -1 (the run's
measured value `count_test_bytes = 8` fails the `j > 8` test). -/
theorem claim_C2_counterexample :
    specClaimBlocks (fun a => if 5 ≤ a ∧ a < 14 then TEST_BYTE else 0) 0 20 = 1 ∧
    (check_for_free_memory_corruption
      (fun a => if 5 ≤ a ∧ a < 14 then TEST_BYTE else 0) 0 20).ret = -1 :=
  ⟨by decide, by decide⟩

/-- C2 (amended): for every region with `end ≥ start` whose size fits
the 16-bit `int` pointer difference, in which no scanned position
starts a sentinel run reaching the 32000-byte cap, and in which no
sentinel run extends past byte offset 32767 (`k + runLen ≤ 32767` for
every scanned `k` — otherwise the scan's `i += j; i++` overflows the
16-bit signed index, which is undefined behaviour under which the
machine loop wraps and rescans instead of terminating), the check
returns 0 iff the scanned bytes contain exactly one run counted as a
block — a run of sentinel bytes whose length exceeds 9 bytes (the
code counts a run only when its measured value, the run length minus
one, exceeds 8); it returns -1 when no such run exists; and it
returns the block count itself when more than one such run exists. -/
theorem claim_C2_amended (mem : Nat → Nat) (ptr sp : Nat) (hle : ptr ≤ sp)
    (hfit : sp - ptr ≤ 32767)
    (H : ∀ k, k < sp - ptr → runLen mem (ptr + k) 32000 < 32000)
    (_Hov : ∀ k, k < sp - ptr → k + runLen mem (ptr + k) 32000 ≤ 32767) :
    ((check_for_free_memory_corruption mem ptr sp).ret = 0 ↔
      countedBlocks mem ptr (sp - ptr) = 1) ∧
    (countedBlocks mem ptr (sp - ptr) = 0 →
      (check_for_free_memory_corruption mem ptr sp).ret = -1) ∧
    (1 < countedBlocks mem ptr (sp - ptr) →
      (check_for_free_memory_corruption mem ptr sp).ret =
        (countedBlocks mem ptr (sp - ptr) : Int)) := by
  rw [check_ret_eq mem ptr sp hle hfit H]
  refine ⟨?_, ?_, ?_⟩
  · by_cases h1 : countedBlocks mem ptr (sp - ptr) = 1
    · simp [h1]
    · rw [if_neg h1]
      by_cases h0 : countedBlocks mem ptr (sp - ptr) = 0
      · simp [h0, h1]
      · rw [if_neg h0]
        constructor
        · intro hc
          exact absurd (by exact_mod_cast hc) h0
        · intro hc
          exact absurd hc h1
  · intro h0
    simp [h0]
  · intro h2
    rw [if_neg (by omega), if_neg (by omega)]

/-- C2, witness for the amended theorem at a concrete region: 15 bytes
with one 12-byte sentinel run. -/
theorem claim_C2_witness :
    (0 : Nat) ≤ 15 ∧
    (check_for_free_memory_corruption
      (fun a => if a < 12 then TEST_BYTE else 0) 0 15).ret = 0 :=
  ⟨by decide,
   (claim_C2_amended (fun a => if a < 12 then TEST_BYTE else 0) 0 15
     (by decide) (by decide) (by decide) (by decide)).1.mpr (by decide)⟩

/-- C3, counterexample: at a pointer whose sentinel run has length
`L = 0` (the very first byte is not the sentinel), the claim requires
the return value 0, but `count_test_bytes` returns `0 - 1 = -1`. -/
theorem claim_C3_counterexample :
    count_test_bytes (fun _ => 0) 0 = -1 ∧ (-1 : Int) ≠ (0 : Int) :=
  ⟨by decide, by decide⟩

/-- C3 (amended): for every pointer `p` into a byte buffer such that
the maximal run of consecutive sentinel bytes starting at `p` has
length `L` with `0 ≤ L < 32000`, `count_test_bytes p` returns `L - 1`
(one less than the run length; in particular -1 for an empty run). -/
theorem claim_C3_amended (mem : Nat → Nat) (p L : Nat) (hL : L < 32000)
    (hs : ∀ k, k < L → mem (p + k) = TEST_BYTE)
    (hne : mem (p + L) ≠ TEST_BYTE) :
    count_test_bytes mem p = (L : Int) - 1 :=
  count_test_bytes_of_run mem p L hs hne hL

/-- C3, witness: a 9-byte sentinel run measures as `9 - 1 = 8`. -/
theorem claim_C3_witness :
    (9 : Nat) < 32000 ∧
    count_test_bytes (fun a => if a < 9 then TEST_BYTE else 0) 0 = (9 : Int) - 1 :=
  ⟨by decide,
   claim_C3_amended (fun a => if a < 9 then TEST_BYTE else 0) 0 9
     (by decide) (by decide) (by decide)⟩

/-- C4, counterexample: a region of size 258 is not rejected — the
initializer proceeds (size - 250 = 8 ≥ 0) and writes 8 sentinel
bytes, so the byte at offset 8 changes from 0 to the sentinel. -/
theorem claim_C4_counterexample :
    (init_free_memory (fun _ => 0) 0 258).2.1 = true ∧
    (init_free_memory (fun _ => 0) 0 258).1 8 = TEST_BYTE ∧
    (0 : Nat) ≠ TEST_BYTE :=
  ⟨by decide, by decide, by decide⟩

/-- C4 (amended): the initializer fails (prints `Unable to initialize`
and returns early) exactly when `size - 250 < 0`, i.e. for sizes of at
most 249 — not 258; when it fails it performs no writes, leaving every
byte of memory byte-for-byte identical. -/
theorem claim_C4_amended (mem : Nat → Nat) (ptr : Nat) (size : Int)
    (h : size < 250) :
    (init_free_memory mem ptr size).2.1 = false ∧
    ∀ a, (init_free_memory mem ptr size).1 a = mem a := by
  have hneg : size - 250 < 0 := by omega
  constructor
  · simp [init_free_memory, hneg]
  · intro a
    simp [init_free_memory, hneg]

/-- C4, witness: size 100 fails and memory is untouched. -/
theorem claim_C4_witness :
    (100 : Int) < 250 ∧ (init_free_memory (fun _ => 7) 3 100).2.1 = false ∧
      (init_free_memory (fun _ => 7) 3 100).1 5 = 7 :=
  ⟨by decide, (claim_C4_amended (fun _ => 7) 3 100 (by decide)).1,
    (claim_C4_amended (fun _ => 7) 3 100 (by decide)).2 5⟩

/-- C5, counterexample: at `ptr = 65500`, `sp = 100` the region's end
is numerically below its start (a gap of 65400 bytes) and the
collision branch is taken — but the 16-bit pointer difference
`n = sp - ptr` wraps to +136, so the block-counting scan examines 136
bytes rather than none. -/
theorem claim_C5_counterexample :
    (100 : Nat) < 65500 ∧
    (check_for_free_memory_corruption (fun _ => 0) 65500 100).collision = true ∧
    (check_for_free_memory_corruption (fun _ => 0) 65500 100).examined = 136 ∧
    (136 : Nat) ≠ 0 :=
  ⟨by decide, by decide, by decide, by decide⟩

/-- C5 (amended): for every region whose end address is numerically
less than its start address, the check reports the stack/heap
collision (the unsigned pointer comparison `sp < ptr` holds), and —
provided the gap is at most 32768 bytes, so that the 16-bit pointer
difference `sp - ptr` stays negative instead of wrapping positive —
the block-counting scan examines no byte.  For gaps above 32768 bytes
the wrapped difference is positive and the scan does examine bytes. -/
theorem claim_C5_amended (mem : Nat → Nat) (ptr sp : Nat) (h : sp < ptr)
    (hptr : ptr < 65536) (hgap : ptr - sp ≤ 32768) :
    (check_for_free_memory_corruption mem ptr sp).collision = true ∧
    (check_for_free_memory_corruption mem ptr sp).examined = 0 := by
  have h1 : toU16i ((sp : Int) - (ptr : Int)) = 65536 - (ptr - sp) := by
    unfold toU16i
    omega
  have hn : (toI16 (toU16i ((sp : Int) - (ptr : Int)))).toNat = 0 := by
    rw [h1]
    unfold toI16
    rw [Nat.mod_eq_of_lt (by omega), if_neg (by omega)]
    omega
  simp [check_for_free_memory_corruption, hn, scanGo, h]

/-- C5, witness for the amended theorem at a concrete collapsed region
with a small gap. -/
theorem claim_C5_witness :
    5 < 10 ∧ (check_for_free_memory_corruption (fun _ => 0) 10 5).collision = true ∧
      (check_for_free_memory_corruption (fun _ => 0) 10 5).examined = 0 :=
  ⟨by decide,
   (claim_C5_amended (fun _ => 0) 10 5 (by decide) (by decide) (by decide)).1,
   (claim_C5_amended (fun _ => 0) 10 5 (by decide) (by decide) (by decide)).2⟩

/-- C10 (confirmed): the fault injector's stride divisor `size + 1` is
computed in 16-bit unsigned arithmetic; it is nonzero for every count
below 65535, so the stride division is well-defined there, and at
65535 it wraps to 0 (the division-by-zero case). -/
theorem claim_C10 (c : Nat) (h : c < 65535) :
    corrupt_stride_divisor c ≠ 0 ∧ corrupt_stride_divisor 65535 = 0 := by
  unfold corrupt_stride_divisor
  constructor
  · omega
  · decide

/-- C10, witness at count 3. -/
theorem claim_C10_witness :
    3 < 65535 ∧ corrupt_stride_divisor 3 ≠ 0 :=
  ⟨by decide, (claim_C10 3 (by decide)).1⟩

/-! ### Report-scan lemmas -/

/-- Walking the report loop across a stretch of non-sentinel bytes
advances the index one byte per iteration and changes nothing else. -/
theorem reportGo_skip (mem : Nat → Nat) (ptr size : Nat) :
    ∀ d fuel (s : ReportState),
      (∀ k, k < d → mem (ptr + (s.i + k)) ≠ TEST_BYTE) →
      s.i + d ≤ size → d ≤ fuel → s.i + d < 65536 →
      reportGo mem ptr size fuel s =
        reportGo mem ptr size (fuel - d) { s with i := s.i + d } := by
  intro d
  induction d with
  | zero =>
    intro fuel s _ _ _ _
    rfl
  | succ d ih =>
    intro fuel s hne hsz hfuel hlt
    obtain ⟨f, rfl⟩ : ∃ f, fuel = f + 1 := ⟨fuel - 1, by omega⟩
    have hi : s.i < size := by omega
    have h0 : mem (ptr + s.i) ≠ TEST_BYTE := by
      have := hne 0 (by omega)
      simpa using this
    rw [show reportGo mem ptr size (f+1) s =
        reportGo mem ptr size f { s with i := (s.i + 1) % 65536 } from by
      simp [reportGo, hi, h0]]
    rw [show (s.i + 1) % 65536 = s.i + 1 from Nat.mod_eq_of_lt (by omega)]
    have hrec := ih f { s with i := s.i + 1 }
      (fun k hk => by
        have hk1 := hne (k+1) (by omega)
        show mem (ptr + (s.i + 1 + k)) ≠ TEST_BYTE
        rw [show s.i + 1 + k = s.i + (k+1) by omega]
        exact hk1)
      (by show s.i + 1 + d ≤ size; omega)
      (by omega)
      (by show s.i + 1 + d < 65536; omega)
    rw [hrec, show f - d = f + 1 - (d + 1) by omega,
      show s.i + 1 + d = s.i + (d + 1) by omega]

/-- Once the index reaches the region size, the report loop stops. -/
theorem reportGo_done (mem : Nat → Nat) (ptr size fuel : Nat) (s : ReportState)
    (h : size ≤ s.i) (hf : 0 < fuel) :
    reportGo mem ptr size fuel s = some s := by
  obtain ⟨f, rfl⟩ : ∃ f, fuel = f + 1 := ⟨fuel - 1, by omega⟩
  simp [reportGo, show ¬ (s.i < size) by omega]

/-- One iteration of the report loop at the start of a sentinel run of
length `L` (10 ≤ L ≤ 32000): the run is reported with measured value
`L - 1`, the index skips to the first byte past the run, and — because
the `int16_t` maximum is compared as `unsigned int` on AVR, where its
initial value -1 reads as 65535 — the maximum tracking never updates
while `toU16i max_cnt = 65535`. -/
theorem reportGo_step_count (mem : Nat → Nat) (ptr size f : Nat) (s : ReportState)
    (hi : s.i < size) (L : Nat)
    (hL : count_test_bytes mem (ptr + s.i) = (L : Int) - 1)
    (hm : mem (ptr + s.i) = TEST_BYTE)
    (h10 : 10 ≤ L) (hLle : L ≤ 32000) (hwrap : s.i + L < 65536)
    (hmax : toU16i s.max_cnt = 65535) :
    reportGo mem ptr size (f + 1) s =
      reportGo mem ptr size f
        { i := s.i + L, block_cnt := (s.block_cnt + 1) % 65536,
          max_cnt := s.max_cnt, max_addr := s.max_addr,
          found := s.found ++ [(ptr + s.i, L - 1)] } := by
  have htoU : toU16i (count_test_bytes mem (ptr + s.i)) = L - 1 := by
    rw [hL]
    unfold toU16i
    omega
  have hj : 8 < toU16i (count_test_bytes mem (ptr + s.i)) := by omega
  have hcmp : ¬ (toU16i s.max_cnt < toU16i (count_test_bytes mem (ptr + s.i))) := by
    rw [htoU, hmax]
    omega
  simp only [reportGo]
  rw [if_pos hi, if_pos hm, if_pos hj, if_neg hcmp, if_neg hcmp, htoU]
  rw [show (s.i + (L - 1)) % 65536 = s.i + (L - 1) from Nat.mod_eq_of_lt (by omega)]
  rw [show (s.i + (L - 1) + 1) % 65536 = s.i + (L - 1) + 1 from Nat.mod_eq_of_lt (by omega)]
  rw [show s.i + (L - 1) + 1 = s.i + L by omega]

/-! ### Memories holding a single sentinel interval -/

/-- On a memory whose bytes in the scanned range `[0, S)` are the
sentinel exactly on the interval `[8, 8 + P)`, the report scan finds
exactly one block, reported at address `ptr + 8` with measured value
`P - 1`, and (on AVR) leaves the maximum tracking at its initial
`-1`/NULL state. -/
theorem report_single_block (m : Nat → Nat) (ptr S P : Nat)
    (hP1 : 10 ≤ P) (hP2 : P < 32000) (hPS : 8 + P < S) (hS : S < 65536)
    (hin : ∀ k, 8 ≤ k → k < 8 + P → m (ptr + k) = TEST_BYTE)
    (hout : ∀ k, k < S → k < 8 ∨ 8 + P ≤ k → m (ptr + k) ≠ TEST_BYTE) :
    ∀ fuel, S + 2 ≤ fuel →
      reportGo m ptr S fuel
        { i := 0, block_cnt := 0, max_cnt := -1, max_addr := none, found := [] } =
      some { i := S, block_cnt := 1, max_cnt := -1, max_addr := none,
             found := [(ptr + 8, P - 1)] } := by
  have hcnt : count_test_bytes m (ptr + 8) = (P : Int) - 1 := by
    apply count_test_bytes_of_run
    · intro k hk
      rw [show ptr + 8 + k = ptr + (8 + k) by omega]
      exact hin (8 + k) (by omega) (by omega)
    · rw [show ptr + 8 + P = ptr + (8 + P) by omega]
      exact hout (8 + P) (by omega) (Or.inr (by omega))
    · omega
  intro fuel hfuel
  rw [reportGo_skip m ptr S 8 fuel
    { i := 0, block_cnt := 0, max_cnt := -1, max_addr := none, found := [] }
    (fun k hk => by
      show m (ptr + (0 + k)) ≠ TEST_BYTE
      rw [Nat.zero_add]
      exact hout k (by omega) (Or.inl (by omega)))
    (by show (0 : Nat) + 8 ≤ S; omega) (by omega) (by show (0 : Nat) + 8 < 65536; omega)]
  obtain ⟨f, hf2⟩ : ∃ f, fuel - 8 = f + 1 := ⟨fuel - 9, by omega⟩
  rw [hf2]
  rw [reportGo_step_count m ptr S f
    { i := 0 + 8, block_cnt := 0, max_cnt := -1, max_addr := none, found := [] }
    (by show (0 : Nat) + 8 < S; omega) P
    (by show count_test_bytes m (ptr + (0 + 8)) = (P : Int) - 1
        rw [Nat.zero_add]; exact hcnt)
    (by show m (ptr + (0 + 8)) = TEST_BYTE
        rw [Nat.zero_add]; exact hin 8 (by omega) (by omega))
    (by omega) (by omega) (by show (0 : Nat) + 8 + P < 65536; omega)
    (by decide)]
  rw [reportGo_skip m ptr S (S - (8 + P)) f
    { i := 0 + 8 + P, block_cnt := (0 + 1) % 65536, max_cnt := -1, max_addr := none,
      found := [] ++ [(ptr + (0 + 8), P - 1)] }
    (fun k hk => by
      show m (ptr + (0 + 8 + P + k)) ≠ TEST_BYTE
      rw [show (0 : Nat) + 8 + P + k = 8 + P + k by omega]
      exact hout (8 + P + k) (by omega) (Or.inr (by omega)))
    (by show (0 : Nat) + 8 + P + (S - (8 + P)) ≤ S; omega)
    (by omega)
    (by show (0 : Nat) + 8 + P + (S - (8 + P)) < 65536; omega)]
  rw [reportGo_done m ptr S (f - (S - (8 + P)))
    { i := 0 + 8 + P + (S - (8 + P)), block_cnt := (0 + 1) % 65536, max_cnt := -1,
      max_addr := none, found := [] ++ [(ptr + (0 + 8), P - 1)] }
    (by show S ≤ 0 + 8 + P + (S - (8 + P)); omega) (by omega)]
  rw [show (0 : Nat) + 8 + P + (S - (8 + P)) = S by omega]
  norm_num

/-- On a single-interval memory, a sentinel byte within the scanned
range must lie in the interval. -/
theorem single_block_range (m : Nat → Nat) (ptr S P : Nat)
    (_hPS : 8 + P < S)
    (hout : ∀ k, k < S → k < 8 ∨ 8 + P ≤ k → m (ptr + k) ≠ TEST_BYTE)
    (x : Nat) (hx : x < S) (hm : m (ptr + x) = TEST_BYTE) :
    8 ≤ x ∧ x < 8 + P := by
  constructor
  · by_contra h8
    push_neg at h8
    exact hout x (by omega) (Or.inl (by omega)) hm
  · by_contra hh
    push_neg at hh
    exact hout x (by omega) (Or.inr (by omega)) hm

/-- On a single-interval memory no scanned position starts a sentinel
run reaching the 32000-byte cap. -/
theorem runcap_single_block (m : Nat → Nat) (ptr S P : Nat)
    (hP2 : P < 32000) (hPS : 8 + P < S)
    (hout : ∀ k, k < S → k < 8 ∨ 8 + P ≤ k → m (ptr + k) ≠ TEST_BYTE) :
    ∀ k, k < S → runLen m (ptr + k) 32000 < 32000 := by
  intro k hk
  by_cases hm : m (ptr + k) = TEST_BYTE
  · have hkr := single_block_range m ptr S P hPS hout k hk hm
    have hub : runLen m (ptr + k) 32000 ≤ 8 + P - k := by
      apply runLen_le_of_ne
      rw [show ptr + k + (8 + P - k) = ptr + (8 + P) by omega]
      exact hout (8 + P) (by omega) (Or.inr (by omega))
    omega
  · rw [runLen_zero_of_ne _ _ _ hm]
    omega

/-- On a single-interval memory the check scan counts exactly one
block, starting at offset 8. -/
theorem counted_single_block (m : Nat → Nat) (ptr S P : Nat)
    (hP1 : 10 ≤ P) (hP2 : P < 32000) (hPS : 8 + P < S)
    (hin : ∀ k, 8 ≤ k → k < 8 + P → m (ptr + k) = TEST_BYTE)
    (hout : ∀ k, k < S → k < 8 ∨ 8 + P ≤ k → m (ptr + k) ≠ TEST_BYTE) :
    countedBlocks m ptr S = 1 := by
  have hrl8 : runLen m (ptr + 8) 32000 = P := by
    apply runLen_of_run
    · intro k hk
      rw [show ptr + 8 + k = ptr + (8 + k) by omega]
      exact hin (8 + k) (by omega) (by omega)
    · rw [show ptr + 8 + P = ptr + (8 + P) by omega]
      exact hout (8 + P) (by omega) (Or.inr (by omega))
    · omega
  have hq8 : qualb m ptr 8 = true := by
    rw [qualb_eq_true_iff]
    refine ⟨hin 8 (by omega) (by omega), Or.inr ?_, by omega, by omega⟩
    rw [show ptr + 8 - 1 = ptr + 7 by omega]
    exact hout 7 (by omega) (Or.inl (by omega))
  have hqother : ∀ x, x < S → x ≠ 8 → ¬ (qualb m ptr x = true) := by
    intro x hx h8 hq
    rw [qualb_eq_true_iff] at hq
    obtain ⟨hmx, hmaxi, _, _⟩ := hq
    have hkr := single_block_range m ptr S P hPS hout x hx hmx
    have hx1 : m (ptr + x - 1) = TEST_BYTE := by
      rw [show ptr + x - 1 = ptr + (x - 1) by omega]
      exact hin (x - 1) (by omega) (by omega)
    rcases hmaxi with h0 | hprev
    · omega
    · exact hprev hx1
  unfold countedBlocks
  rw [show (Finset.range S).filter (fun x => qualb m ptr x = true) = {8} from by
    ext x
    simp only [Finset.mem_filter, Finset.mem_range, Finset.mem_singleton]
    constructor
    · rintro ⟨hx, hq⟩
      by_contra h8
      exact hqother x hx h8 hq
    · rintro rfl
      exact ⟨by omega, hq8⟩]
  rfl

/-! ### Effect of the initializer -/

theorem init_mem_in (mem : Nat → Nat) (ptr S : Nat) (h250 : 250 ≤ S) (a : Nat)
    (h1 : ptr + 8 ≤ a) (h2 : a < ptr + 8 + (S - 250)) :
    (init_free_memory mem ptr (S : Int)).1 a = TEST_BYTE := by
  have hnn : ¬ ((S : Int) - 250 < 0) := by omega
  have ht : ((S : Int) - 250).toNat = S - 250 := by omega
  simp [init_free_memory, hnn, ht, h1, h2]

theorem init_mem_out (mem : Nat → Nat) (ptr S : Nat) (h250 : 250 ≤ S) (a : Nat)
    (h : a < ptr + 8 ∨ ptr + 8 + (S - 250) ≤ a) :
    (init_free_memory mem ptr (S : Int)).1 a = mem a := by
  have hnn : ¬ ((S : Int) - 250 < 0) := by omega
  have ht : ((S : Int) - 250).toNat = S - 250 := by omega
  have hcond : ¬ (ptr + 8 ≤ a ∧ a < ptr + 8 + (S - 250)) := by omega
  simp [init_free_memory, hnn, ht, hcond]

/-- C1, counterexample: the concrete 2000-byte scenario.  After the
initializer runs on a fresh all-zero region of 2000 bytes, the report
scan finds exactly one free block — but its reported length is 1749,
not the 1742 the claim demands (the initializer fills
`2000 - 250 = 1750` bytes starting at offset 8, and the run counter
reports one less than the run length), while the check operation does
return 0. -/
theorem claim_C1_counterexample :
    free_memory_pool_report ((init_free_memory (fun _ => 0) 0 2000).1) 0 2000 =
      some { i := 2000, block_cnt := 1, max_cnt := -1, max_addr := none,
             found := [(8, 1749)] } ∧
    (1749 : Nat) ≠ 1742 ∧
    (check_for_free_memory_corruption ((init_free_memory (fun _ => 0) 0 2000).1)
      0 2000).ret = 0 :=
  ⟨by decide, by decide, by decide⟩

/-- C1 (amended): for every region of `S` bytes, `260 ≤ S ≤ 32249`,
whose bytes outside the initialised span (offsets below 8 or at least
`S - 242`) are not the sentinel, running the initializer and then the
report scan yields exactly one free block, reported at offset 8 with
measured length `S - 251` (the initializer writes `S - 250` sentinel
bytes starting at guard offset 8 — the high guard is 242 bytes, not
250 — and the run counter reports one less than the run length), and
the check operation returns success code 0.  In particular for
`S = 2000` the reported block length is 1749, not 1742. -/
theorem claim_C1_amended (mem : Nat → Nat) (ptr S : Nat)
    (hS1 : 260 ≤ S) (hS2 : S ≤ 32249)
    (hclean : ∀ k, k < S → k < 8 ∨ S - 242 ≤ k → mem (ptr + k) ≠ TEST_BYTE) :
    free_memory_pool_report ((init_free_memory mem ptr (S : Int)).1) ptr S =
      some { i := S, block_cnt := 1, max_cnt := -1, max_addr := none,
             found := [(ptr + 8, S - 251)] } ∧
    (check_for_free_memory_corruption ((init_free_memory mem ptr (S : Int)).1)
      ptr (ptr + S)).ret = 0 := by
  have h250 : 250 ≤ S := by omega
  have hin : ∀ k, 8 ≤ k → k < 8 + (S - 250) →
      (init_free_memory mem ptr (S : Int)).1 (ptr + k) = TEST_BYTE := by
    intro k hk1 hk2
    exact init_mem_in mem ptr S h250 (ptr + k) (by omega) (by omega)
  have hout : ∀ k, k < S → k < 8 ∨ 8 + (S - 250) ≤ k →
      (init_free_memory mem ptr (S : Int)).1 (ptr + k) ≠ TEST_BYTE := by
    intro k hk hsides
    rw [init_mem_out mem ptr S h250 (ptr + k) (by omega)]
    apply hclean k hk
    omega
  constructor
  · have := report_single_block ((init_free_memory mem ptr (S : Int)).1) ptr S (S - 250)
      (by omega) (by omega) (by omega) (by omega) hin hout 70000 (by omega)
    rw [free_memory_pool_report, this]
    rw [show S - 250 - 1 = S - 251 by omega]
  · have hcb := counted_single_block ((init_free_memory mem ptr (S : Int)).1) ptr S
      (S - 250) (by omega) (by omega) (by omega) hin hout
    have hH : ∀ k, k < ptr + S - ptr →
        runLen ((init_free_memory mem ptr (S : Int)).1) (ptr + k) 32000 < 32000 := by
      intro k hk
      exact runcap_single_block ((init_free_memory mem ptr (S : Int)).1) ptr S (S - 250)
        (by omega) (by omega) hout k (by omega)
    rw [check_ret_eq ((init_free_memory mem ptr (S : Int)).1) ptr (ptr + S) (by omega)
      (by omega) hH]
    rw [show ptr + S - ptr = S by omega, hcb]
    rfl

/-- C1, witness for the amended theorem: the 2000-byte scenario on an
all-zero region, via the general theorem. -/
theorem claim_C1_witness :
    (260 ≤ 2000 ∧ 2000 ≤ 32249) ∧
    free_memory_pool_report ((init_free_memory (fun _ => 3) 5 2000).1) 5 2000 =
      some { i := 2000, block_cnt := 1, max_cnt := -1, max_addr := none,
             found := [(5 + 8, 2000 - 251)] } :=
  ⟨⟨by decide, by decide⟩,
   (claim_C1_amended (fun _ => 3) 5 2000 (by decide) (by decide)
     (fun k _ _ => by simp [TEST_BYTE])).1⟩

/-! ### Effect of the fault injector's write loop -/

theorem foldl_upd_apply_notin (f g : Nat → Nat) :
    ∀ (l : List Nat) (m : Nat → Nat) (a : Nat), (∀ i ∈ l, a ≠ f i) →
      (l.foldl (fun mm i => updByte mm (f i) (g i)) m) a = m a := by
  intro l
  induction l with
  | nil => intro m a _; rfl
  | cons x xs ih =>
    intro m a h
    rw [List.foldl_cons, ih (updByte m (f x) (g x)) a (fun i hi => h i (by simp [hi]))]
    simp [updByte, h x (by simp)]

theorem foldl_upd_apply_mem (f g : Nat → Nat) :
    ∀ (l : List Nat) (m : Nat → Nat) (i0 : Nat), i0 ∈ l →
      (∀ i ∈ l, f i = f i0 → i = i0) → l.Nodup →
      (l.foldl (fun mm i => updByte mm (f i) (g i)) m) (f i0) = g i0 := by
  intro l
  induction l with
  | nil => intro m i0 h; simp at h
  | cons x xs ih =>
    intro m i0 hmem hinj hnd
    rw [List.foldl_cons]
    by_cases hx : i0 ∈ xs
    · exact ih _ i0 hx (fun i hi hf => hinj i (by simp [hi]) hf) (List.Nodup.of_cons hnd)
    · have hx0 : i0 = x := by
        rcases List.mem_cons.mp hmem with h | h
        · exact h
        · exact absurd h hx
      subst hx0
      rw [foldl_upd_apply_notin f g xs _ (f i0) ?_]
      · simp [updByte]
      · intro i hi heq
        have hii : i = i0 := hinj i (by simp [hi]) heq.symm
        subst hii
        exact hx hi

theorem foldl_corrupt_out (ptr8 jv n : Nat) (mem : Nat → Nat) (a : Nat)
    (h : ∀ i, 1 ≤ i → i ≤ n → a ≠ ptr8 + (i * jv) % 65536) :
    ((List.range' 1 n).foldl
      (fun m i => updByte m (ptr8 + (i * jv) % 65536) (i % 256)) mem) a = mem a := by
  apply foldl_upd_apply_notin (fun i => ptr8 + (i * jv) % 65536) (fun i => i % 256)
  intro i hi
  have := List.mem_range'_1.mp hi
  exact h i (by omega) (by omega)

theorem foldl_corrupt_write (ptr8 jv n : Nat) (mem : Nat → Nat) (i0 : Nat)
    (h1 : 1 ≤ i0) (h2 : i0 ≤ n)
    (hinj : ∀ i, 1 ≤ i → i ≤ n → (i * jv) % 65536 = (i0 * jv) % 65536 → i = i0) :
    ((List.range' 1 n).foldl
      (fun m i => updByte m (ptr8 + (i * jv) % 65536) (i % 256)) mem)
      (ptr8 + (i0 * jv) % 65536) = i0 % 256 := by
  apply foldl_upd_apply_mem (fun i => ptr8 + (i * jv) % 65536) (fun i => i % 256)
  · exact List.mem_range'_1.mpr ⟨by omega, by omega⟩
  · intro i hi heq
    have hm := List.mem_range'_1.mp hi
    exact hinj i (by omega) (by omega) (by omega)
  · exact List.nodup_range' 1 n

/-! ### Memories holding a punctured sentinel interval -/

/-- On a memory whose scanned range `[0, S)` is sentinel exactly on
`[8, 8 + P)` minus single-byte punctures at `8 + i*jv` for
`i = 1..n` (with stride `jv ≥ 11` and a final stretch of at least 10
sentinel bytes), the check scan counts exactly `n + 1` blocks. -/
theorem counted_punctured (m : Nat → Nat) (ptr S P n jv : Nat)
    (hn1 : 1 ≤ n)
    (hjv1 : 11 ≤ jv) (hjv2 : n * jv + 11 ≤ P)
    (hP2 : P < 32000) (hPS : 8 + P < S)
    (hsen : ∀ k, 8 ≤ k → k < 8 + P → (∀ i, 1 ≤ i → i ≤ n → k ≠ 8 + i * jv) →
      m (ptr + k) = TEST_BYTE)
    (hwr : ∀ i, 1 ≤ i → i ≤ n → m (ptr + (8 + i * jv)) ≠ TEST_BYTE)
    (hout : ∀ k, k < S → k < 8 ∨ 8 + P ≤ k → m (ptr + k) ≠ TEST_BYTE) :
    countedBlocks m ptr S = n + 1 := by
  have honemul : 1 * jv ≤ n * jv := Nat.mul_le_mul_right jv hn1
  have hrl8 : runLen m (ptr + 8) 32000 = jv := by
    apply runLen_of_run
    · intro k hk
      rw [show ptr + 8 + k = ptr + (8 + k) by omega]
      apply hsen (8 + k) (by omega) (by omega)
      intro i hi1 _ heq
      have := Nat.mul_le_mul_right jv hi1
      omega
    · rw [show ptr + 8 + jv = ptr + (8 + 1 * jv) by omega]
      exact hwr 1 (by omega) hn1
    · omega
  have hrl_mid : ∀ i, 1 ≤ i → i < n →
      runLen m (ptr + (9 + i * jv)) 32000 = jv - 1 := by
    intro i h1 h2
    have hsucc : (i + 1) * jv = i * jv + jv := by ring
    have hle : (i + 1) * jv ≤ n * jv := Nat.mul_le_mul_right jv (by omega)
    apply runLen_of_run
    · intro k hk
      rw [show ptr + (9 + i * jv) + k = ptr + (9 + i * jv + k) by omega]
      apply hsen (9 + i * jv + k) (by omega) (by omega)
      intro i' hi1 hi2 heq
      rcases Nat.lt_or_ge i' (i + 1) with hlt | hge
      · have : i' * jv ≤ i * jv := Nat.mul_le_mul_right jv (by omega)
        omega
      · have : (i + 1) * jv ≤ i' * jv := Nat.mul_le_mul_right jv hge
        omega
    · rw [show ptr + (9 + i * jv) + (jv - 1) = ptr + (8 + (i + 1) * jv) by
        rw [hsucc]; omega]
      exact hwr (i + 1) (by omega) (by omega)
    · omega
  have hrl_last : runLen m (ptr + (9 + n * jv)) 32000 = P - n * jv - 1 := by
    apply runLen_of_run
    · intro k hk
      rw [show ptr + (9 + n * jv) + k = ptr + (9 + n * jv + k) by omega]
      apply hsen (9 + n * jv + k) (by omega) (by omega)
      intro i' hi1 hi2 heq
      have : i' * jv ≤ n * jv := Nat.mul_le_mul_right jv hi2
      omega
    · rw [show ptr + (9 + n * jv) + (P - n * jv - 1) = ptr + (8 + P) by omega]
      exact hout (8 + P) (by omega) (Or.inr (by omega))
    · omega
  have hq8 : qualb m ptr 8 = true := by
    rw [qualb_eq_true_iff]
    refine ⟨?_, Or.inr ?_, ?_, ?_⟩
    · apply hsen 8 (by omega) (by omega)
      intro i hi1 _ heq
      have := Nat.mul_le_mul_right jv hi1
      omega
    · rw [show ptr + 8 - 1 = ptr + 7 by omega]
      exact hout 7 (by omega) (Or.inl (by omega))
    · rw [hrl8]; omega
    · rw [hrl8]; omega
  have hqw : ∀ i, 1 ≤ i → i ≤ n → qualb m ptr (9 + i * jv) = true := by
    intro i h1 h2
    have hile : i * jv ≤ n * jv := Nat.mul_le_mul_right jv h2
    rw [qualb_eq_true_iff]
    refine ⟨?_, Or.inr ?_, ?_, ?_⟩
    · apply hsen (9 + i * jv) (by omega) (by omega)
      intro i' hi1 hi2 heq
      rcases Nat.lt_or_ge i' (i + 1) with hlt | hge
      · have : i' * jv ≤ i * jv := Nat.mul_le_mul_right jv (by omega)
        omega
      · have hsucc : (i + 1) * jv = i * jv + jv := by ring
        have : (i + 1) * jv ≤ i' * jv := Nat.mul_le_mul_right jv hge
        omega
    · rw [show ptr + (9 + i * jv) - 1 = ptr + (8 + i * jv) by omega]
      exact hwr i h1 h2
    · rcases Nat.lt_or_ge i n with hlt | hge
      · rw [hrl_mid i h1 hlt]; omega
      · have hin : i = n := by omega
        subst hin
        rw [hrl_last]; omega
    · rcases Nat.lt_or_ge i n with hlt | hge
      · rw [hrl_mid i h1 hlt]; omega
      · have hin : i = n := by omega
        subst hin
        rw [hrl_last]; omega
  have hqonly : ∀ x, x < S → qualb m ptr x = true →
      x = 8 ∨ ∃ i, 1 ≤ i ∧ i ≤ n ∧ x = 9 + i * jv := by
    intro x hx hq
    rw [qualb_eq_true_iff] at hq
    obtain ⟨hmx, hmaxi, _, _⟩ := hq
    have hxr : 8 ≤ x ∧ x < 8 + P := by
      constructor
      · by_contra h8
        push_neg at h8
        exact hout x hx (Or.inl (by omega)) hmx
      · by_contra hh
        push_neg at hh
        exact hout x hx (Or.inr (by omega)) hmx
    by_cases h8 : x = 8
    · exact Or.inl h8
    · right
      have hprev : m (ptr + x - 1) ≠ TEST_BYTE := by
        rcases hmaxi with h0 | hp
        · omega
        · exact hp
      by_contra hno
      push_neg at hno
      apply hprev
      rw [show ptr + x - 1 = ptr + (x - 1) by omega]
      apply hsen (x - 1) (by omega) (by omega)
      intro i hi1 hi2 heq
      exact hno i hi1 hi2 (by omega)
  have hfil : (Finset.range S).filter (fun x => qualb m ptr x = true) =
      insert 8 ((Finset.Icc 1 n).image (fun i => 9 + i * jv)) := by
    ext x
    simp only [Finset.mem_filter, Finset.mem_range, Finset.mem_insert, Finset.mem_image,
      Finset.mem_Icc]
    constructor
    · rintro ⟨hx, hq⟩
      rcases hqonly x hx hq with h | ⟨i, h1, h2, h3⟩
      · exact Or.inl h
      · exact Or.inr ⟨i, ⟨h1, h2⟩, h3.symm⟩
    · rintro (rfl | ⟨i, ⟨h1, h2⟩, rfl⟩)
      · exact ⟨by omega, hq8⟩
      · refine ⟨?_, hqw i h1 h2⟩
        have : i * jv ≤ n * jv := Nat.mul_le_mul_right jv h2
        omega
  unfold countedBlocks
  rw [hfil]
  rw [Finset.card_insert_of_not_mem (by
    simp only [Finset.mem_image, Finset.mem_Icc]
    rintro ⟨i, ⟨h1, _⟩, heq⟩
    have := Nat.mul_le_mul_right jv h1
    omega)]
  rw [Finset.card_image_of_injective _ (fun a b hab => by
    have : a * jv = b * jv := by omega
    exact Nat.eq_of_mul_eq_mul_right (by omega) this)]
  rw [Nat.card_Icc]
  omega

/-- C6, counterexample: with `S = 298` and `n = 3` the injector's
stride is `j = (298 - 258) / 4 = 10`, so the three non-sentinel writes
(values 1, 2, 3) land at offsets 18, 28, 38 of an otherwise intact
pool and leave sentinel runs of length 9 between them — above the
spec's 8-byte threshold — yet the check counts only 2 blocks (the
runs of 9 fail the code's `j > 8` test on the measured value 8) and
returns 2, not `n + 1 = 4`. -/
theorem claim_C6_counterexample :
    (check_for_free_memory_corruption
      ((corrupt_free_memory ((init_free_memory (fun _ => 0) 0 298).1) 0 298 3).1)
      0 298).ret = 2 ∧
    (2 : Int) ≠ 3 + 1 ∧
    runLen ((corrupt_free_memory ((init_free_memory (fun _ => 0) 0 298).1) 0 298 3).1)
      19 32000 = 9 ∧
    8 < 9 ∧
    ((corrupt_free_memory ((init_free_memory (fun _ => 0) 0 298).1) 0 298 3).1) 18 = 1 :=
  ⟨by decide, by decide, by decide, by decide, by decide⟩

/-- C6 (amended): for every `n ≥ 1` (at most 228, so the written bytes
are the values `1..n`, none of them the sentinel), if the injector's
stride `j = (S - 258) / (n + 1)` is at least 11 — so that the sentinel
runs left between consecutive writes have length `j - 1 ≥ 10`, i.e.
strictly more than 9 bytes, the scanner's real threshold — and the
final run has length at least 10 (`n*j + 11 ≤ S - 250`), then after
initializing an `S`-byte region (`260 ≤ S ≤ 32249`, boundaries clean)
and corrupting it with count `n`, the check reports
`blockCount = n + 1` and returns that non-zero block count. -/
theorem claim_C6_amended (mem : Nat → Nat) (ptr S n : Nat)
    (hS1 : 260 ≤ S) (hS2 : S ≤ 32249)
    (hn1 : 1 ≤ n) (hn2 : n ≤ 228)
    (hclean : ∀ k, k < S → k < 8 ∨ S - 242 ≤ k → mem (ptr + k) ≠ TEST_BYTE)
    (hj1 : 11 ≤ (S - 258) / (n + 1))
    (hj2 : n * ((S - 258) / (n + 1)) + 11 ≤ S - 250) :
    (check_for_free_memory_corruption
        ((corrupt_free_memory ((init_free_memory mem ptr (S : Int)).1) ptr (ptr + S) n).1)
        ptr (ptr + S)).blockCnt = (n : Int) + 1 ∧
    (check_for_free_memory_corruption
        ((corrupt_free_memory ((init_free_memory mem ptr (S : Int)).1) ptr (ptr + S) n).1)
        ptr (ptr + S)).ret = (n : Int) + 1 := by
  have h250 : 250 ≤ S := by omega
  have honemul : 1 * ((S - 258) / (n + 1)) ≤ n * ((S - 258) / (n + 1)) :=
    Nat.mul_le_mul_right _ hn1
  have hnear : toU16i (((ptr + S : Nat) : Int) - ((ptr + 8 : Nat) : Int) - 250)
      = S - 258 := by
    unfold toU16i
    omega
  have hdivn : corrupt_stride_divisor n = n + 1 := by
    unfold corrupt_stride_divisor
    omega
  have hm2eq : (corrupt_free_memory ((init_free_memory mem ptr (S : Int)).1)
        ptr (ptr + S) n).1 =
      (List.range' 1 n).foldl
        (fun m i => updByte m (ptr + 8 + (i * ((S - 258) / (n + 1))) % 65536) (i % 256))
        ((init_free_memory mem ptr (S : Int)).1) := by
    simp only [corrupt_free_memory, hnear, hdivn]
  have hmodi : ∀ i, i ≤ n →
      (i * ((S - 258) / (n + 1))) % 65536 = i * ((S - 258) / (n + 1)) := by
    intro i hi
    apply Nat.mod_eq_of_lt
    have := Nat.mul_le_mul_right ((S - 258) / (n + 1)) hi
    omega
  have hin : ∀ k, 8 ≤ k → k < 8 + (S - 250) →
      (init_free_memory mem ptr (S : Int)).1 (ptr + k) = TEST_BYTE := by
    intro k hk1 hk2
    exact init_mem_in mem ptr S h250 (ptr + k) (by omega) (by omega)
  have hout1 : ∀ k, k < S → k < 8 ∨ 8 + (S - 250) ≤ k →
      (init_free_memory mem ptr (S : Int)).1 (ptr + k) ≠ TEST_BYTE := by
    intro k hk hsides
    rw [init_mem_out mem ptr S h250 (ptr + k) (by omega)]
    apply hclean k hk
    omega
  have hsen : ∀ k, 8 ≤ k → k < 8 + (S - 250) →
      (∀ i, 1 ≤ i → i ≤ n → k ≠ 8 + i * ((S - 258) / (n + 1))) →
      (corrupt_free_memory ((init_free_memory mem ptr (S : Int)).1)
        ptr (ptr + S) n).1 (ptr + k) = TEST_BYTE := by
    intro k h1 h2 hnw
    rw [hm2eq]
    rw [foldl_corrupt_out (ptr + 8) ((S - 258) / (n + 1)) n _ (ptr + k) (by
      intro i hi1 hi2
      rw [hmodi i hi2]
      intro heq
      exact hnw i hi1 hi2 (by omega))]
    exact hin k h1 h2
  have hwr : ∀ i, 1 ≤ i → i ≤ n →
      (corrupt_free_memory ((init_free_memory mem ptr (S : Int)).1)
        ptr (ptr + S) n).1 (ptr + (8 + i * ((S - 258) / (n + 1)))) ≠ TEST_BYTE := by
    intro i h1 h2
    rw [hm2eq]
    rw [show ptr + (8 + i * ((S - 258) / (n + 1))) =
        ptr + 8 + (i * ((S - 258) / (n + 1))) % 65536 by rw [hmodi i h2]; omega]
    rw [foldl_corrupt_write (ptr + 8) ((S - 258) / (n + 1)) n _ i h1 h2 (by
      intro i' hi1 hi2 heq
      rw [hmodi i' hi2, hmodi i h2] at heq
      exact Nat.eq_of_mul_eq_mul_right (by omega) heq)]
    rw [Nat.mod_eq_of_lt (show i < 256 by omega)]
    unfold TEST_BYTE
    omega
  have hout2 : ∀ k, k < S → k < 8 ∨ 8 + (S - 250) ≤ k →
      (corrupt_free_memory ((init_free_memory mem ptr (S : Int)).1)
        ptr (ptr + S) n).1 (ptr + k) ≠ TEST_BYTE := by
    intro k hk hsides
    rw [hm2eq]
    rw [foldl_corrupt_out (ptr + 8) ((S - 258) / (n + 1)) n _ (ptr + k) (by
      intro i hi1 hi2
      rw [hmodi i hi2]
      have h1i : 1 * ((S - 258) / (n + 1)) ≤ i * ((S - 258) / (n + 1)) :=
        Nat.mul_le_mul_right _ hi1
      have h2i : i * ((S - 258) / (n + 1)) ≤ n * ((S - 258) / (n + 1)) :=
        Nat.mul_le_mul_right _ hi2
      omega)]
    exact hout1 k hk hsides
  have hcb := counted_punctured
    ((corrupt_free_memory ((init_free_memory mem ptr (S : Int)).1) ptr (ptr + S) n).1)
    ptr S (S - 250) n ((S - 258) / (n + 1)) hn1 hj1 hj2 (by omega) (by omega)
    hsen hwr hout2
  have hH : ∀ k, k < ptr + S - ptr →
      runLen ((corrupt_free_memory ((init_free_memory mem ptr (S : Int)).1)
        ptr (ptr + S) n).1) (ptr + k) 32000 < 32000 := by
    intro k hk
    exact runcap_single_block _ ptr S (S - 250) (by omega) (by omega) hout2 k (by omega)
  constructor
  · rw [check_blockCnt_val _ ptr (ptr + S) (by omega) (by omega) hH]
    rw [show ptr + S - ptr = S by omega, hcb]
    rw [if_neg (by omega)]
    push_cast
    ring
  · rw [check_ret_eq _ ptr (ptr + S) (by omega) (by omega) hH]
    rw [show ptr + S - ptr = S by omega, hcb]
    rw [if_neg (by omega), if_neg (by omega)]
    push_cast
    ring

/-- C6, witness for the amended theorem: the 2000-byte scenario with 3
corruptions (stride 435) makes the check return 4. -/
theorem claim_C6_witness :
    (11 ≤ (2000 - 258) / (3 + 1) ∧ 3 * ((2000 - 258) / (3 + 1)) + 11 ≤ 2000 - 250) ∧
    (check_for_free_memory_corruption
        ((corrupt_free_memory ((init_free_memory (fun _ => 0) 0 (2000 : Int)).1)
          0 (0 + 2000) 3).1)
        0 (0 + 2000)).ret = (3 : Int) + 1 :=
  ⟨⟨by decide, by decide⟩,
   (claim_C6_amended (fun _ => 0) 0 2000 3 (by decide) (by decide) (by decide)
     (by decide) (fun k _ _ => by simp [TEST_BYTE]) (by decide) (by decide)).2⟩

/-! ### Dump rows -/

theorem dumpRowsGo_eq (sp : Nat) (h15 : sp % 16 = 15) (htop : sp < 65535) :
    ∀ fuel p, p % 16 = 0 → (sp + 1 - p) / 16 ≤ fuel →
      dumpRowsGo fuel p sp =
        ((List.range ((sp + 1 - p) / 16)).map (fun r => p + 16 * r), true) := by
  intro fuel
  induction fuel with
  | zero =>
    intro p h0 hle
    have hz : (sp + 1 - p) / 16 = 0 := by omega
    have hnp : ¬ (p < sp) := by omega
    simp [dumpRowsGo, hz, hnp]
  | succ f ih =>
    intro p h0 hle
    by_cases hp : p < sp
    · have hmod : (p + 16) % 65536 = p + 16 := Nat.mod_eq_of_lt (by omega)
      have hcnt : (sp + 1 - p) / 16 = (sp + 1 - (p + 16)) / 16 + 1 := by omega
      have hrec := ih (p + 16) (by omega) (by omega)
      rw [show dumpRowsGo (f+1) p sp =
          (p :: (List.range ((sp + 1 - (p + 16)) / 16)).map (fun r => p + 16 + 16 * r),
           true) from by simp [dumpRowsGo, hp, hmod, hrec]]
      rw [hcnt, List.range_succ_eq_map, List.map_cons, List.map_map]
      simp only [Nat.mul_zero, Nat.add_zero]
      congr 2
      apply List.map_congr_left
      intro r _
      simp only [Function.comp_apply]
      omega
    · have hz : (sp + 1 - p) / 16 = 0 := by omega
      rw [show dumpRowsGo (f+1) p sp = ([], true) from by simp [dumpRowsGo, hp], hz]
      simp

theorem countP_range_unique (q : Nat → Bool) :
    ∀ N r0, r0 < N → (∀ r, r < N → (q r = true ↔ r = r0)) →
      (List.range N).countP q = 1 := by
  intro N
  induction N with
  | zero => intro r0 hr _; omega
  | succ N ih =>
    intro r0 hr hq
    rw [List.range_succ, List.countP_append]
    by_cases hN : r0 = N
    · have hz : (List.range N).countP q = 0 := by
        apply List.countP_eq_zero.mpr
        intro r hrm
        have hrN := List.mem_range.mp hrm
        intro hqr
        have hr0 : r = r0 := (hq r (by omega)).mp hqr
        omega
      have hqN : q N = true := (hq N (by omega)).mpr hN.symm
      rw [hz]
      simp [List.countP_cons, hqN]
    · have h1 : (List.range N).countP q = 1 := by
        apply ih r0 (by omega)
        intro r hrN
        exact hq r (by omega)
      have hqN : q N = false := by
        by_cases hqb : q N = true
        · exact absurd ((hq N (by omega)).mp hqb).symm hN
        · simpa using hqb
      rw [h1]
      simp [List.countP_cons, hqN]

/-- When the aligned end address is the very top of the 16-bit address
space, every aligned row pointer is below it, so the dump loop never
exits: after any number of iterations it has emitted that many rows
and is still running. -/
theorem dumpRowsGo_top :
    ∀ fuel p, p % 16 = 0 → p < 65536 →
      (dumpRowsGo fuel p 65535).2 = false ∧
      (dumpRowsGo fuel p 65535).1.length = fuel := by
  intro fuel
  induction fuel with
  | zero =>
    intro p h0 hlt
    have hp : p < 65535 := by omega
    simp [dumpRowsGo, hp]
  | succ f ih =>
    intro p h0 hlt
    have hp : p < 65535 := by omega
    have hrec := ih ((p + 16) % 65536) (by omega) (by omega)
    obtain ⟨rows, t, h⟩ : ∃ rows t, dumpRowsGo f ((p + 16) % 65536) 65535 = (rows, t) :=
      ⟨_, _, rfl⟩
    rw [h] at hrec
    rw [show dumpRowsGo (f+1) p 65535 = (p :: rows, t) from by simp [dumpRowsGo, hp, h]]
    simp only [List.length_cons] at hrec ⊢
    exact ⟨hrec.1, by rw [hrec.2]⟩

/-- C7, counterexample: at `start = end = 0xFFFF` the claim demands
exactly `ceil((alignedEnd - alignedStart) / 16) = 1` row, but the
16-bit row pointer wraps past the top of the address space
(`0xFFF0 + 16 ≡ 0`) so the loop never terminates: after the 4097
iterations allowed by the embedding's fuel it has emitted 4097 rows
and is still running (the row pointer takes at most 4096 distinct
values, so a state has repeated and the loop is periodic). -/
theorem claim_C7_counterexample :
    (65535 : Nat) ≤ 65535 ∧
    (alignUp15 65535 - alignDown16 65535 + 15) / 16 = 1 ∧
    (dump_rows 65535 65535).2 = false ∧
    (dump_rows 65535 65535).1.length = 4097 ∧
    (4097 : Nat) ≠ 1 := by
  have h := dumpRowsGo_top 4097 65520 (by decide) (by decide)
  have hdown : alignDown16 65535 = 65520 := by decide
  have hup : alignUp15 65535 = 65535 := by decide
  refine ⟨by decide, by decide, ?_, ?_, by decide⟩
  · show (dumpRowsGo 4097 (alignDown16 65535) (alignUp15 65535)).2 = false
    rw [hdown, hup]
    exact h.1
  · show (dumpRowsGo 4097 (alignDown16 65535) (alignUp15 65535)).1.length = 4097
    rw [hdown, hup]
    exact h.2

/-- C7 (amended): for every pair of addresses `start ≤ end` with `end`
below `0xFFF0` — so the aligned end row is not the top row of the
16-bit address space and the loop's row pointer never wraps — the dump
loop terminates and emits exactly
`ceil((alignedEnd - alignedStart) / 16)` rows; the row start addresses
form an arithmetic sequence with common difference 16 beginning at
`alignedStart`; and every address in `[start, end]` is covered by
exactly one row.  For `end ≥ 0xFFF0` the row pointer wraps and the
loop never terminates, emitting unboundedly many rows. -/
theorem claim_C7_amended (ptr sp : Nat) (hle : ptr ≤ sp) (hsp : sp < 65520) :
    (dump_rows ptr sp).2 = true ∧
    (dump_rows ptr sp).1 =
      (List.range ((alignUp15 sp - alignDown16 ptr + 15) / 16)).map
        (fun r => alignDown16 ptr + 16 * r) ∧
    (dump_rows ptr sp).1.length = (alignUp15 sp - alignDown16 ptr + 15) / 16 ∧
    ∀ a, ptr ≤ a → a ≤ sp →
      (dump_rows ptr sp).1.countP (fun row => decide (row ≤ a ∧ a < row + 16)) = 1 := by
  have hptr : ptr % 65536 = ptr := Nat.mod_eq_of_lt (by omega)
  have hspm : sp % 65536 = sp := Nat.mod_eq_of_lt (by omega)
  have hd : alignDown16 ptr = ptr / 16 * 16 := by unfold alignDown16; rw [hptr]
  have hu : alignUp15 sp = sp / 16 * 16 + 15 := by unfold alignUp15; rw [hspm]
  have h0 : alignDown16 ptr % 16 = 0 := by rw [hd]; omega
  have h15 : alignUp15 sp % 16 = 15 := by rw [hu]; omega
  have hcount : (alignUp15 sp + 1 - alignDown16 ptr) / 16 =
      (alignUp15 sp - alignDown16 ptr + 15) / 16 := by
    rw [hd, hu]
    omega
  have hmain : dump_rows ptr sp =
      ((List.range ((alignUp15 sp + 1 - alignDown16 ptr) / 16)).map
        (fun r => alignDown16 ptr + 16 * r), true) := by
    unfold dump_rows
    apply dumpRowsGo_eq (alignUp15 sp) h15 (by rw [hu]; omega) 4097 (alignDown16 ptr) h0
    rw [hd, hu]
    omega
  refine ⟨by rw [hmain], ?_, ?_, ?_⟩
  · rw [hmain, hcount]
  · rw [hmain]
    show ((List.range ((alignUp15 sp + 1 - alignDown16 ptr) / 16)).map
        (fun r => alignDown16 ptr + 16 * r)).length = _
    rw [List.length_map, List.length_range, hcount]
  · intro a ha1 ha2
    rw [hmain]
    show ((List.range ((alignUp15 sp + 1 - alignDown16 ptr) / 16)).map
        (fun r => alignDown16 ptr + 16 * r)).countP
        (fun row => decide (row ≤ a ∧ a < row + 16)) = 1
    rw [List.countP_map]
    apply countP_range_unique _ ((alignUp15 sp + 1 - alignDown16 ptr) / 16)
      ((a - alignDown16 ptr) / 16)
    · rw [hd, hu]
      omega
    · intro r hrN
      simp only [Function.comp_apply, decide_eq_true_eq]
      rw [hd] at *
      omega

/-- C7, witness for the amended theorem: dumping `[35, 100]` aligns to
`[32, 111]`, terminates, and the address 50 is covered by exactly one
of the five rows. -/
theorem claim_C7_witness :
    35 ≤ 100 ∧
    (dump_rows 35 100).2 = true ∧
    (dump_rows 35 100).1.countP (fun row => decide (row ≤ 50 ∧ 50 < row + 16)) = 1 :=
  ⟨by decide, (claim_C7_amended 35 100 (by decide) (by decide)).1,
   (claim_C7_amended 35 100 (by decide) (by decide)).2.2.2 50 (by decide) (by decide)⟩

/-! ### Dump annotations -/

/-- Unsigned reading of `render_char`: for byte values below 256 the
signed-`char` comparisons of the source coincide with the plain
three-way classification of the claim. -/
theorem render_char_cases (qlo qhi a b : Nat) (hb : b < 256) :
    render_char qlo qhi a b =
      if qlo ≤ a ∧ a < qhi then (if 32 ≤ b ∧ b ≤ 126 then (b : Int) else 32)
      else if b = TEST_BYTE then 32 else 63 := by
  unfold render_char toI8 TEST_BYTE
  rw [Nat.mod_eq_of_lt hb]
  by_cases h128 : b < 128
  · rw [if_pos h128]
    norm_num
    split_ifs <;> first | omega | exact False.elim (by assumption)
  · rw [if_neg h128]
    norm_num
    split_ifs <;> first | omega | exact False.elim (by assumption)

/-- C8 (confirmed): in dump's second (annotation) pass over each
16-byte row, byte `i` of the row at address `rowAddr` is rendered as:
its ASCII character if its address lies inside the command-queue
exempt zone `[qlo, qhi)` (with a blank, 32, substituted when the byte
is outside the printable range 32..126); a blank if outside the zone
and equal to the sentinel; and the distinct anomaly marker `?` (63)
if outside the zone and not the sentinel. -/
theorem claim_C8 (qlo qhi : Nat) (mem : Nat → Nat) (ptr sp : Nat)
    (hb : ∀ x, mem x < 256) :
    ∀ t ∈ dump_free_memory qlo qhi mem ptr sp, ∀ i, i < 16 →
      t.2.2.get? i = some (
        if qlo ≤ t.1 + i ∧ t.1 + i < qhi then
          (if 32 ≤ mem (t.1 + i) ∧ mem (t.1 + i) ≤ 126 then (mem (t.1 + i) : Int) else 32)
        else if mem (t.1 + i) = TEST_BYTE then 32 else 63) := by
  intro t ht i hi
  obtain ⟨a, _, rfl⟩ := List.mem_map.mp ht
  show ((List.range 16).map (fun k => render_char qlo qhi (a + k) (mem (a + k)))).get? i = _
  rw [List.get?_map, List.get?_range hi]
  simp only [Option.map_some']
  congr 1
  exact render_char_cases qlo qhi (a + i) (mem (a + i)) (hb (a + i))

/-- C8, witness: a row of an all-sentinel dump outside the exempt zone
annotates byte 3 as a blank. -/
theorem claim_C8_witness :
    ((0, List.replicate 16 229, List.replicate 16 (32 : Int)) ∈
      dump_free_memory 100 110 (fun _ => 229) 0 20) ∧
    ((0 : Nat), List.replicate 16 229,
      List.replicate 16 (32 : Int)).2.2.get? 3 = some 32 := by
  constructor
  · decide
  · have h := claim_C8 100 110 (fun _ => 229) 0 20 (fun x => by norm_num)
      ((0, List.replicate 16 229, List.replicate 16 (32 : Int)))
      (by decide) 3 (by decide)
    rw [h]
    decide

/-! ### The lifecycle flag of gcode_M100 -/

theorem m100_ranList_false (cs : List Bool) : m100_ranList false cs = cs := by
  induction cs with
  | nil => rfl
  | cons c cs ih =>
    cases c <;> simp [m100_ranList, gcode_M100_step, ih]

theorem m100_flagList_false (cs : List Bool) :
    m100_flagList false cs = List.replicate cs.length false := by
  induction cs with
  | nil => rfl
  | cons c cs ih =>
    cases c <;> simp [m100_flagList, gcode_M100_step, ih, List.replicate_succ]

/-- C9 (confirmed): across every sequence of invocations in one
process lifetime (each invocation given by whether it carries the `I`
subcommand), the initializer runs on the first invocation no matter
what, and on a later invocation exactly when that invocation requests
`I`; the `m100_not_initialized` flag is false after every invocation,
i.e. it transitions from uninitialized to initialized exactly once, at
the first call. -/
theorem claim_C9 (c : Bool) (cs : List Bool) :
    m100_ranList true (c :: cs) = true :: cs ∧
    m100_flagList true (c :: cs) = List.replicate (c :: cs).length false := by
  constructor
  · cases c <;>
      simp [m100_ranList, gcode_M100_step, m100_ranList_false]
  · cases c <;>
      simp [m100_flagList, gcode_M100_step, m100_flagList_false, List.replicate_succ]

end M100
